import Mathlib

/-!
Verification of the emoji catalog builder and text scanner of `src/emoji.rs`.

The Rust code is shallowly embedded at codepoint granularity: Rust `String`
and `&str` become `List Char` (every slicing operation in the source happens
at a `char` boundary, so the codepoint-level view is faithful), `u64`/`u32`
values become `Nat` with explicit bounds, fallible operations return
`Option`/`Except`, and a Rust panic (`expect`) is modelled by the
`PResult.panic` constructor.
-/

namespace PeterEmoji

/-- Result of running code that may panic (Rust `expect`): either a panic or a value. -/
inductive PResult (α : Type) where
  | panic : PResult α
  | ok : α → PResult α
  deriving DecidableEq

/-- The token type produced by the scanner, mirroring the two `serenity::ReactionType`
variants the code constructs: `Custom { id, name }` and `Unicode(string)`. -/
inductive EmojiToken where
  | Custom (id : Nat) (name : List Char)
  | Unicode (s : List Char)
  deriving DecidableEq

/-- The character class `[0-9A-Z_a-z]` of the custom-emoji regexes. -/
def isWordChar (c : Char) : Bool :=
  ('0' ≤ c && c ≤ '9') || ('A' ≤ c && c ≤ 'Z') || c == '_' || ('a' ≤ c && c ≤ 'z')

/-- The character class `[0-9]`. -/
def isAsciiDigit (c : Char) : Bool := '0' ≤ c && c ≤ '9'

/-- Decimal value of a digit string, as computed by `u64::from_str` before its
range check (the string is guaranteed non-empty and all digits at call sites). -/
def digitsToNat (ds : List Char) : Nat :=
  ds.foldl (fun acc c => 10 * acc + (c.toNat - '0'.toNat)) 0

/-- Match of the regex `^<:[0-9A-Z_a-z]{2,}:[0-9]+>` at the start of `t`.
Returns `(name, digits, rest)` where `rest` is the text after the match.
The name group must be the maximal word-character run (a shorter run would be
followed by a word character, not `:`), and the digit group the maximal digit
run (a shorter run would be followed by a digit, not `>`), so the regex's
greedy backtracking semantics reduce to `takeWhile`/`dropWhile`. -/
def customMatch (t : List Char) : Option (List Char × List Char × List Char) :=
  match t with
  | '<' :: ':' :: r1 =>
    if 2 ≤ (r1.takeWhile isWordChar).length then
      match r1.dropWhile isWordChar with
      | ':' :: r2 =>
        if 1 ≤ (r2.takeWhile isAsciiDigit).length then
          match r2.dropWhile isAsciiDigit with
          | '>' :: r3 => some (r1.takeWhile isWordChar, r2.takeWhile isAsciiDigit, r3)
          | _ => none
        else none
      | _ => none
    else none
  | _ => none

/-- The text of a whole custom-emoji match: `<:name:digits>`. -/
def customCapture (name digits : List Char) : List Char :=
  '<' :: ':' :: (name ++ ':' :: (digits ++ ['>']))

/-- Embedding of `parse_custom_emoji` (src/emoji.rs:99-112): the regex
`^<:([0-9A-Z_a-z]{2,}):([0-9]+)>$` is anchored at both ends, so a match is a
`customMatch` whose rest is empty.  On a match the digit group is parsed by
`u64::from_str` guarded by `.expect`, which panics when the value does not fit
in 64 bits; otherwise the function returns `None`. -/
def parse_custom_emoji (t : List Char) : PResult (Option EmojiToken) :=
  match customMatch t with
  | some (name, digits, rest) =>
    if rest = [] then
      if digitsToNat digits < 2 ^ 64 then
        .ok (some (.Custom (digitsToNat digits) name))
      else .panic
    else .ok none
  | none => .ok none

/-- Embedding of `self.emoji.iter().rev().filter(|&e| text.starts_with(e)).next()`
(src/emoji.rs:86): the first element of the reversed catalog vector that is a
prefix of the remaining text. -/
def chooseUnicode (cat : List (List Char)) (t : List Char) : Option (List Char) :=
  cat.reverse.find? (fun e => e.isPrefixOf t)

/-- One attempt of the scan loop body at the current position: first the
custom-emoji regex (whose whole capture is handed to `parse_custom_emoji`,
src/emoji.rs:79-85), then the Unicode catalog lookup (src/emoji.rs:86-89).
`none` means neither matched here.  A successful attempt carries
`(skipped, span, token, rest)` with `skipped = []`. -/
def tryHere (cat : List (List Char)) (t : List Char) :
    Option (PResult (Option (List Char × List Char × EmojiToken × List Char))) :=
  match customMatch t with
  | some (name, digits, rest) =>
    match parse_custom_emoji (customCapture name digits) with
    | .panic => some .panic
    | .ok (some tok) => some (.ok (some ([], customCapture name digits, tok, rest)))
    | .ok none =>
      match chooseUnicode cat t with
      | some m => some (.ok (some ([], m, .Unicode m, t.drop m.length)))
      | none => none
  | none =>
    match chooseUnicode cat t with
    | some m => some (.ok (some ([], m, .Unicode m, t.drop m.length)))
    | none => none

/-- Embedding of the loop of `Iter::next` (src/emoji.rs:78-94).  At each
position the body tries a match (`tryHere`); on failure, if at least two
codepoints remain (`text.char_indices().nth(1)` is `Some`), the cursor skips
one codepoint and the loop retries, otherwise the call returns `None`.
The result records the codepoints skipped before the match, the matched span,
the token, and the remaining text stored back into the iterator. -/
def nextAux (cat : List (List Char)) :
    List Char → PResult (Option (List Char × List Char × EmojiToken × List Char))
  | [] => (tryHere cat []).getD (.ok none)
  | [c] => (tryHere cat [c]).getD (.ok none)
  | c1 :: c2 :: cs =>
    match tryHere cat (c1 :: c2 :: cs) with
    | some r => r
    | none =>
      match nextAux cat (c2 :: cs) with
      | .panic => .panic
      | .ok none => .ok none
      | .ok (some (sk, span, tok, rest)) => .ok (some (c1 :: sk, span, tok, rest))

/-- The token sequence obtained by repeatedly calling `Iter::next`, with fuel
bounding the number of calls: `none` means the fuel was exhausted before the
iterator finished (used to reason about termination), `some .panic` that a call
panicked, `some (.ok toks)` that the iterator finished producing `toks`. -/
def scanFuel : Nat → List (List Char) → List Char → Option (PResult (List EmojiToken))
  | 0, _, _ => none
  | fuel + 1, cat, t =>
    match nextAux cat t with
    | .panic => some .panic
    | .ok none => some (.ok [])
    | .ok (some (_, _, tok, rest)) =>
      match scanFuel fuel cat rest with
      | none => none
      | some .panic => some .panic
      | some (.ok toks) => some (.ok (tok :: toks))

/-- Like `scanFuel` but recording, for each token, the piece of text its
`next` call consumed (skipped codepoints followed by the matched span), plus
the trailing text consumed codepoint-by-codepoint by the final `next` call
that returns `None`. -/
def scanParts : Nat → List (List Char) → List Char →
    Option (PResult (List (List Char) × List Char))
  | 0, _, _ => none
  | fuel + 1, cat, t =>
    match nextAux cat t with
    | .panic => some .panic
    | .ok none => some (.ok ([], t))
    | .ok (some (sk, span, _, rest)) =>
      match scanParts fuel cat rest with
      | none => none
      | some .panic => some .panic
      | some (.ok (pieces, leftover)) => some (.ok ((sk ++ span) :: pieces, leftover))

/-! ### Catalog builder (`Iter::new`, src/emoji.rs:50-66) -/

/-- The character class `[0-9a-f]` of the filename regex (lowercase hex only). -/
def isHexLower (c : Char) : Bool := ('0' ≤ c && c ≤ '9') || ('a' ≤ c && c ≤ 'f')

/-- Value of one lowercase hex digit. -/
def hexVal (c : Char) : Nat :=
  if c ≤ '9' then c.toNat - '0'.toNat else c.toNat - 'a'.toNat + 10

/-- Base-16 value of a hex-digit group (`u32::from_str_radix(hex, 16)`; a group
has at most 6 digits so the parse itself never overflows `u32`). -/
def hexGroupVal (g : List Char) : Nat :=
  g.foldl (fun acc c => 16 * acc + hexVal c) 0

/-- `char::from_u32`: `some` exactly on Unicode scalar values. -/
def charFromNat (n : Nat) : Option Char :=
  if n.isValidChar then some (Char.ofNat n) else none

/-- Decoding of one captured group: parse as base 16, convert to a scalar value;
groups that do not denote a scalar value are dropped by the `filter_map`. -/
def decodeGroup (g : List Char) : Option Char :=
  charFromNat (hexGroupVal g)

/-- A group of the filename regex: 1 to 6 lowercase hex digits. -/
def groupOk (g : List Char) : Bool :=
  1 ≤ g.length && g.length ≤ 6 && g.all isHexLower

/-- Match of the filename regex `^([0-9a-f]{1,6}(?:-[0-9a-f]{1,6})*)\.svg$`
against a whole filename, returning the hex groups.  The regex is anchored at
both ends, the group characters are hex digits (never `-` or `.`), and a hex
run between two separators must be consumed entirely by one `{1,6}` group, so
the regex is equivalent to: the name ends in `.svg` and the stem, split on
`-`, consists of groups of 1-6 hex digits (splitting also rules out empty
groups, so a leading, trailing or doubled `-` rejects the name). -/
def filenameGroups (t : List Char) : Option (List (List Char)) :=
  match t.reverse with
  | 'g' :: 'v' :: 's' :: '.' :: stemRev =>
    if (stemRev.reverse.splitOn '-').all groupOk then some (stemRev.reverse.splitOn '-')
    else none
  | _ => none

/-- Processing of one directory entry's filename (src/emoji.rs:57-59): if the
regex matches, split the capture on `-` and decode the groups
(`capture.split('-').filter_map(..).collect()`). -/
def decodeFilename (t : List Char) : Option (List Char) :=
  (filenameGroups t).map (·.filterMap decodeGroup)

/-- Strict codepoint-lexicographic order on strings, the order of Rust's
`BTreeSet<String>` (byte-lexicographic UTF-8 order coincides with
codepoint-lexicographic order). -/
def lexLt : List Char → List Char → Bool
  | [], [] => false
  | [], _ :: _ => true
  | _ :: _, [] => false
  | a :: as, b :: bs => if a < b then true else if b < a then false else lexLt as bs

/-- Insertion into the sorted deduplicated list modelling `BTreeSet<String>`. -/
def insertEmoji (s : List Char) : List (List Char) → List (List Char)
  | [] => [s]
  | x :: xs =>
    if lexLt s x then s :: x :: xs
    else if s = x then x :: xs
    else x :: insertEmoji s xs

/-- Construction-time error type (src/emoji.rs:14-19). -/
inductive BuildErr where
  | FilenameDecode (raw : List Nat)
  | Io
  deriving DecidableEq

/-- One result yielded by the `read_dir` iterator: an I/O error, an entry whose
name is not valid Unicode (carrying the raw bytes), or a decodable name. -/
abbrev DirEntry : Type := Except Unit (Except (List Nat) (List Char))

/-- Processing of one decodable filename inside the entry loop: on a regex
match, insert the decoded string into the set; otherwise leave it unchanged. -/
def catalogInsert (acc : List (List Char)) (name : List Char) : List (List Char) :=
  match decodeFilename name with
  | some s => insertEmoji s acc
  | none => acc

/-- The entry loop of `Iter::new` (src/emoji.rs:55-61): each `?` aborts the
whole build with the corresponding error; a decodable name is matched against
the filename regex and, on a match, its decoding is inserted into the set. -/
def buildEmoji : List DirEntry → List (List Char) → Except BuildErr (List (List Char))
  | [], acc => .ok acc
  | .error _ :: _, _ => .error .Io
  | .ok (.error raw) :: _, _ => .error (.FilenameDecode raw)
  | .ok (.ok name) :: rest, acc => buildEmoji rest (catalogInsert acc name)

/-- The scanner state: the remaining text and the sorted catalog vector
(src/emoji.rs:43-46). -/
structure Iter where
  text : List Char
  emoji : List (List Char)
  deriving DecidableEq

/-- Embedding of `Iter::new` (src/emoji.rs:50-66).  The directory listing
itself may fail (`fs::read_dir(..)?`), modelled by the outer `Except`. -/
def IterNew (text : List Char) (dir : Except Unit (List DirEntry)) : Except BuildErr Iter :=
  match dir with
  | .error _ => .error .Io
  | .ok entries => (buildEmoji entries []).map (fun emoji => ⟨text, emoji⟩)

/-! Concrete characters for the rainbow-flag example. -/

/-- U+1F3F3, the white-flag emoji. -/
def flagChar : Char := Char.ofNat 0x1F3F3
/-- U+FE0F, variation selector 16. -/
def vs16Char : Char := Char.ofNat 0xFE0F
/-- U+200D, zero-width joiner. -/
def zwjChar : Char := Char.ofNat 0x200D
/-- U+1F308, the rainbow emoji. -/
def rainbowChar : Char := Char.ofNat 0x1F308
/-- The four-codepoint rainbow-flag sequence U+1F3F3 U+FE0F U+200D U+1F308. -/
def rainbowFlag : List Char := [flagChar, vs16Char, zwjChar, rainbowChar]

/-- The text `<:bad:99999999999999999999999999>`: custom-emoji-shaped with a
26-digit id exceeding the 64-bit range. -/
def overflowText : List Char :=
  '<' :: ':' :: 'b' :: 'a' :: 'd' :: ':' :: (List.replicate 26 '9' ++ ['>'])

/-! ### Lemmas about the lexicographic order -/

theorem lexLt_irrefl : ∀ a : List Char, lexLt a a = false := by
  intro a
  induction a with
  | nil => rfl
  | cons c cs ih =>
    unfold lexLt
    rw [if_neg (lt_irrefl c), if_neg (lt_irrefl c)]
    exact ih

theorem lexLt_asymm : ∀ {a b : List Char}, lexLt a b = true → lexLt b a = false := by
  intro a
  induction a with
  | nil =>
    intro b h
    cases b with
    | nil => simp [lexLt] at h
    | cons x xs => rfl
  | cons c cs ih =>
    intro b h
    cases b with
    | nil => simp [lexLt] at h
    | cons d ds =>
      unfold lexLt at h ⊢
      by_cases h1 : c < d
      · rw [if_neg (lt_asymm h1), if_pos h1]
      · by_cases h2 : d < c
        · rw [if_neg h1, if_pos h2] at h
          simp at h
        · rw [if_neg h1, if_neg h2] at h
          rw [if_neg h2, if_neg h1]
          exact ih h

theorem eq_of_not_lexLt : ∀ {a b : List Char}, lexLt a b = false → lexLt b a = false → a = b := by
  intro a
  induction a with
  | nil =>
    intro b h _
    cases b with
    | nil => rfl
    | cons x xs => simp [lexLt] at h
  | cons c cs ih =>
    intro b h h2
    cases b with
    | nil => simp [lexLt] at h2
    | cons d ds =>
      unfold lexLt at h h2
      by_cases h1 : c < d
      · rw [if_pos h1] at h; simp at h
      · by_cases h3 : d < c
        · rw [if_pos h3] at h2; simp at h2
        · rw [if_neg h1, if_neg h3] at h
          rw [if_neg h3, if_neg h1] at h2
          have : c = d := le_antisymm (not_lt.mp h3) (not_lt.mp h1)
          rw [this, ih h h2]

theorem lexLt_of_proper_pre : ∀ {a b : List Char}, a <+: b → a ≠ b → lexLt a b = true := by
  intro a
  induction a with
  | nil =>
    intro b _ hne
    cases b with
    | nil => exact absurd rfl hne
    | cons x xs => rfl
  | cons c cs ih =>
    intro b hp hne
    obtain ⟨d, hd⟩ := hp
    subst hd
    show lexLt (c :: cs) (c :: (cs ++ d)) = true
    unfold lexLt
    rw [if_neg (lt_irrefl c), if_neg (lt_irrefl c)]
    apply ih ⟨d, rfl⟩
    intro hcs
    exact hne (by rw [List.cons_append, ← hcs])

theorem length_le_of_lexLt {a b t : List Char} (ha : a <+: t) (hb : b <+: t)
    (h : lexLt a b = true) : a.length ≤ b.length := by
  by_contra hlen
  push_neg at hlen
  have hba : b <+: a := List.prefix_of_prefix_length_le hb ha (le_of_lt hlen)
  have hne : b ≠ a := by
    intro he
    subst he
    omega
  have h2 := lexLt_asymm (lexLt_of_proper_pre hba hne)
  rw [h] at h2
  simp at h2

/-! ### Inversion of `customMatch` -/

theorem customMatch_eq_some {t name digits rest : List Char}
    (h : customMatch t = some (name, digits, rest)) :
    t = customCapture name digits ++ rest ∧ 2 ≤ name.length ∧ 1 ≤ digits.length := by
  unfold customMatch at h
  split at h <;> try exact Option.noConfusion h
  next r1 =>
  split at h <;> try exact Option.noConfusion h
  next hname =>
  split at h <;> try exact Option.noConfusion h
  next r2 hr1 =>
  split at h <;> try exact Option.noConfusion h
  next hdig =>
  split at h <;> try exact Option.noConfusion h
  next r3 hr2 =>
  injection h with h
  injection h with e1 h
  injection h with e2 e3
  subst e1; subst e2; subst e3
  refine ⟨?_, hname, hdig⟩
  have h1 : r1.takeWhile isWordChar ++ r1.dropWhile isWordChar = r1 :=
    List.takeWhile_append_dropWhile ..
  have h2 : r2.takeWhile isAsciiDigit ++ r2.dropWhile isAsciiDigit = r2 :=
    List.takeWhile_append_dropWhile ..
  rw [hr1] at h1
  rw [hr2] at h2
  simp only [customCapture, List.cons_append, List.append_assoc,
    List.singleton_append, List.nil_append]
  conv_lhs => rw [← h1]
  conv_lhs => rw [← h2]

/-! ### Lemmas about `chooseUnicode` -/

theorem chooseUnicode_mem {cat : List (List Char)} {t m : List Char}
    (h : chooseUnicode cat t = some m) : m ∈ cat ∧ m <+: t := by
  unfold chooseUnicode at h
  have h1 := List.find?_some h
  rw [List.isPrefixOf_iff_prefix] at h1
  exact ⟨List.mem_reverse.mp (List.mem_of_find?_eq_some h), h1⟩

theorem chooseUnicode_isSome {cat : List (List Char)} {t e : List Char}
    (he : e ∈ cat) (hp : e <+: t) : ∃ m, chooseUnicode cat t = some m := by
  have h : (cat.reverse.find? (fun e => e.isPrefixOf t)).isSome = true := by
    rw [List.find?_isSome]
    exact ⟨e, List.mem_reverse.mpr he, List.isPrefixOf_iff_prefix.mpr hp⟩
  exact Option.isSome_iff_exists.mp h

theorem find?_max_of_pairwise {p : List Char → Bool} :
    ∀ {l : List (List Char)} {m : List Char},
      l.Pairwise (fun a b => lexLt b a = true) → l.find? p = some m →
      ∀ e ∈ l, p e = true → e = m ∨ lexLt e m = true := by
  intro l
  induction l with
  | nil =>
    intro m _ h
    simp at h
  | cons x xs ih =>
    intro m hs h e he hpe
    rw [List.pairwise_cons] at hs
    by_cases hx : p x = true
    · rw [List.find?_cons_of_pos _ hx] at h
      injection h with h
      subst h
      rcases List.mem_cons.mp he with he1 | he2
      · exact Or.inl he1
      · exact Or.inr (hs.1 e he2)
    · rw [List.find?_cons_of_neg _ hx] at h
      rcases List.mem_cons.mp he with he1 | he2
      · subst he1
        exact absurd hpe hx
      · exact ih hs.2 h e he2 hpe

theorem chooseUnicode_max {cat : List (List Char)} {t m : List Char}
    (hs : cat.Pairwise (fun a b => lexLt a b = true))
    (h : chooseUnicode cat t = some m) :
    ∀ e ∈ cat, e <+: t → e.length ≤ m.length := by
  intro e he hp
  have hrev : cat.reverse.Pairwise (fun a b => lexLt b a = true) :=
    List.pairwise_reverse.mpr hs
  have hm := chooseUnicode_mem h
  rcases find?_max_of_pairwise hrev h e (List.mem_reverse.mpr he)
      (List.isPrefixOf_iff_prefix.mpr hp) with he2 | hlt
  · rw [he2]
  · exact length_le_of_lexLt hp hm.2 hlt

/-! ### Lemmas about `tryHere`, `nextAux` and `scanFuel` -/

theorem pre_append_drop {a t : List Char} (h : a <+: t) : a ++ t.drop a.length = t := by
  obtain ⟨d, rfl⟩ := h
  simp

theorem customCapture_length (name digits : List Char) :
    (customCapture name digits).length = name.length + digits.length + 4 := by
  simp [customCapture]
  omega

theorem tryHere_ok_some {cat : List (List Char)} {t sk span : List Char} {tok : EmojiToken}
    {rest : List Char}
    (h : tryHere cat t = some (.ok (some (sk, span, tok, rest)))) :
    sk = [] ∧ span ++ rest = t ∧
      (7 ≤ span.length ∨ (span ∈ cat ∧ span <+: t ∧ rest = t.drop span.length)) := by
  unfold tryHere at h
  split at h
  case h_1 name digits rest2 hcm =>
    split at h
    case h_1 =>
      injection h with h
      exact PResult.noConfusion h
    case h_2 tok2 =>
      injection h with h
      injection h with h
      injection h with h
      injection h with e1 h
      injection h with e2 h
      injection h with e3 e4
      subst e1; subst e2; subst e4
      obtain ⟨ht, hn, hd⟩ := customMatch_eq_some hcm
      refine ⟨rfl, ht.symm, Or.inl ?_⟩
      rw [customCapture_length]
      omega
    case h_3 =>
      split at h
      case h_1 m hm =>
        injection h with h
        injection h with h
        injection h with h
        injection h with e1 h
        injection h with e2 h
        injection h with e3 e4
        subst e1; subst e2; subst e4
        obtain ⟨hmem, hp⟩ := chooseUnicode_mem hm
        exact ⟨rfl, pre_append_drop hp, Or.inr ⟨hmem, hp, rfl⟩⟩
      case h_2 => exact Option.noConfusion h
  case h_2 hcm =>
    split at h
    case h_1 m hm =>
      injection h with h
      injection h with h
      injection h with h
      injection h with e1 h
      injection h with e2 h
      injection h with e3 e4
      subst e1; subst e2; subst e4
      obtain ⟨hmem, hp⟩ := chooseUnicode_mem hm
      exact ⟨rfl, pre_append_drop hp, Or.inr ⟨hmem, hp, rfl⟩⟩
    case h_2 => exact Option.noConfusion h

theorem nextAux_eq (cat : List (List Char)) (t : List Char) :
    nextAux cat t =
      match tryHere cat t with
      | some r => r
      | none =>
        match t with
        | c1 :: c2 :: cs =>
          match nextAux cat (c2 :: cs) with
          | .panic => .panic
          | .ok none => .ok none
          | .ok (some (sk, span, tok, rest)) => .ok (some (c1 :: sk, span, tok, rest))
        | _ => .ok none := by
  match t with
  | [] => cases htry : tryHere cat [] <;> simp [nextAux, htry]
  | [c] => cases htry : tryHere cat [c] <;> simp [nextAux, htry]
  | c1 :: c2 :: cs => cases htry : tryHere cat (c1 :: c2 :: cs) <;> simp [nextAux, htry]

theorem nextAux_consumed {cat : List (List Char)} : ∀ {t sk span : List Char}
    {tok : EmojiToken} {rest : List Char},
    nextAux cat t = .ok (some (sk, span, tok, rest)) → sk ++ (span ++ rest) = t := by
  intro t
  induction t with
  | nil =>
    intro sk span tok rest h
    rw [nextAux_eq] at h
    rcases htry : tryHere cat [] with _ | r
    · rw [htry] at h
      simp only [] at h
      exact Option.noConfusion (PResult.ok.inj h)
    · rw [htry] at h
      simp only [] at h
      rw [h] at htry
      obtain ⟨h1, h2, _⟩ := tryHere_ok_some htry
      rw [h1, h2]
      rfl
  | cons c1 ts ih =>
    intro sk span tok rest h
    cases ts with
    | nil =>
      rw [nextAux_eq] at h
      rcases htry : tryHere cat [c1] with _ | r
      · rw [htry] at h
        simp only [] at h
        exact Option.noConfusion (PResult.ok.inj h)
      · rw [htry] at h
        simp only [] at h
        rw [h] at htry
        obtain ⟨h1, h2, _⟩ := tryHere_ok_some htry
        rw [h1, h2]
        rfl
    | cons c2 cs =>
      rw [nextAux_eq] at h
      rcases htry : tryHere cat (c1 :: c2 :: cs) with _ | r
      · rw [htry] at h
        simp only [] at h
        rcases hrec : nextAux cat (c2 :: cs) with _ | o
        · rw [hrec] at h
          simp only [] at h
          exact PResult.noConfusion h
        · rw [hrec] at h
          rcases o with _ | ⟨sk', span', tok', rest'⟩
          · simp only [] at h
            exact Option.noConfusion (PResult.ok.inj h)
          · simp only [] at h
            injection h with h
            injection h with h
            injection h with e1 h
            injection h with e2 h
            injection h with e3 e4
            subst e1; subst e2; subst e3; subst e4
            have hcs := ih hrec
            rw [List.cons_append, hcs]
      · rw [htry] at h
        simp only [] at h
        rw [h] at htry
        obtain ⟨h1, h2, _⟩ := tryHere_ok_some htry
        rw [h1, h2]
        rfl

theorem nextAux_span_ne {cat : List (List Char)} (hne : ∀ e ∈ cat, e ≠ []) :
    ∀ {t sk span : List Char} {tok : EmojiToken} {rest : List Char},
    nextAux cat t = .ok (some (sk, span, tok, rest)) → span ≠ [] := by
  intro t
  induction t with
  | nil =>
    intro sk span tok rest h
    rw [nextAux_eq] at h
    rcases htry : tryHere cat [] with _ | r
    · rw [htry] at h
      simp only [] at h
      exact Option.noConfusion (PResult.ok.inj h)
    · rw [htry] at h
      simp only [] at h
      rw [h] at htry
      obtain ⟨_, _, h3 | h3⟩ := tryHere_ok_some htry
      · intro he
        rw [he] at h3
        simp at h3
      · exact hne span h3.1
  | cons c1 ts ih =>
    intro sk span tok rest h
    cases ts with
    | nil =>
      rw [nextAux_eq] at h
      rcases htry : tryHere cat [c1] with _ | r
      · rw [htry] at h
        simp only [] at h
        exact Option.noConfusion (PResult.ok.inj h)
      · rw [htry] at h
        simp only [] at h
        rw [h] at htry
        obtain ⟨_, _, h3 | h3⟩ := tryHere_ok_some htry
        · intro he
          rw [he] at h3
          simp at h3
        · exact hne span h3.1
    | cons c2 cs =>
      rw [nextAux_eq] at h
      rcases htry : tryHere cat (c1 :: c2 :: cs) with _ | r
      · rw [htry] at h
        simp only [] at h
        rcases hrec : nextAux cat (c2 :: cs) with _ | o
        · rw [hrec] at h
          simp only [] at h
          exact PResult.noConfusion h
        · rw [hrec] at h
          rcases o with _ | ⟨sk', span', tok', rest'⟩
          · simp only [] at h
            exact Option.noConfusion (PResult.ok.inj h)
          · simp only [] at h
            injection h with h
            injection h with h
            injection h with e1 h
            injection h with e2 h
            injection h with e3 e4
            subst e2
            exact ih hrec
      · rw [htry] at h
        simp only [] at h
        rw [h] at htry
        obtain ⟨_, _, h3 | h3⟩ := tryHere_ok_some htry
        · intro he
          rw [he] at h3
          simp at h3
        · exact hne span h3.1

theorem nextAux_rest_lt {cat : List (List Char)} {t sk span : List Char} {tok : EmojiToken}
    {rest : List Char} (hne : ∀ e ∈ cat, e ≠ [])
    (h : nextAux cat t = .ok (some (sk, span, tok, rest))) : rest.length < t.length := by
  have hc := nextAux_consumed h
  have hs := nextAux_span_ne hne h
  have h1 : sk.length + (span.length + rest.length) = t.length := by
    rw [← hc]
    simp
  have h2 : 1 ≤ span.length := by
    cases span with
    | nil => exact absurd rfl hs
    | cons a as => simp
  omega

theorem scanFuel_mono : ∀ {n m : Nat} {cat : List (List Char)} {t : List Char},
    (scanFuel n cat t).isSome = true → n ≤ m → (scanFuel m cat t).isSome = true := by
  intro n
  induction n with
  | zero =>
    intro m cat t h _
    simp [scanFuel] at h
  | succ k ih =>
    intro m cat t h hle
    obtain ⟨j, rfl⟩ : ∃ j, m = j + 1 := ⟨m - 1, by omega⟩
    rw [scanFuel] at h ⊢
    revert h
    rcases hn : nextAux cat t with _ | o
    · intro h
      simp
    · rcases o with _ | ⟨sk, span, tok, rest⟩
      · intro h
        simp
      · intro h
        simp only [] at h ⊢
        have h1 : (scanFuel k cat rest).isSome = true := by
          by_contra hc
          rw [Option.not_isSome_iff_eq_none] at hc
          rw [hc] at h
          simp at h
        have h2 := ih h1 (show k ≤ j by omega)
        obtain ⟨q, hq⟩ := Option.isSome_iff_exists.mp h2
        rw [hq]
        cases q <;> simp

theorem scanFuel_complete {cat : List (List Char)} (hne : ∀ e ∈ cat, e ≠ []) :
    ∀ (n : Nat) (t : List Char), t.length < n → (scanFuel (t.length + 1) cat t).isSome = true := by
  intro n
  induction n with
  | zero =>
    intro t ht
    omega
  | succ k ih =>
    intro t ht
    rw [scanFuel]
    rcases hn : nextAux cat t with _ | o
    · try rw [hn]
      simp
    · try rw [hn]
      rcases o with _ | ⟨sk, span, tok, rest⟩
      · simp
      · simp only []
        have hlt := nextAux_rest_lt hne hn
        have h1 := ih rest (by omega)
        have h2 : (scanFuel t.length cat rest).isSome = true :=
          scanFuel_mono h1 (by omega)
        obtain ⟨p, hp⟩ := Option.isSome_iff_exists.mp h2
        rw [hp]
        cases p <;> simp

/-! ### More order lemmas, and lemmas about the catalog builder -/

theorem lexLt_trans : ∀ {a b c : List Char},
    lexLt a b = true → lexLt b c = true → lexLt a c = true := by
  intro a
  induction a with
  | nil =>
    intro b c hab hbc
    cases b with
    | nil => simp [lexLt] at hab
    | cons y bs =>
      cases c with
      | nil => simp [lexLt] at hbc
      | cons z cs => rfl
  | cons x as ih =>
    intro b c hab hbc
    cases b with
    | nil => simp [lexLt] at hab
    | cons y bs =>
      cases c with
      | nil => simp [lexLt] at hbc
      | cons z cs =>
        unfold lexLt at hab hbc ⊢
        by_cases h1 : x < y
        · by_cases h2 : y < z
          · rw [if_pos (lt_trans h1 h2)]
          · by_cases h3 : z < y
            · rw [if_pos h3] at hbc
              simp at hbc
              exact absurd hbc h2
            · have hyz : y = z := le_antisymm (not_lt.mp h3) (not_lt.mp h2)
              rw [← hyz, if_pos h1]
        · by_cases h4 : y < x
          · rw [if_neg h1, if_pos h4] at hab
            simp at hab
          · have hxy : x = y := le_antisymm (not_lt.mp h4) (not_lt.mp h1)
            subst hxy
            rw [if_neg h1, if_neg h1] at hab
            by_cases h2 : x < z
            · rw [if_pos h2]
            · by_cases h3 : z < x
              · rw [if_pos h3] at hbc
                simp at hbc
                exact absurd hbc h2
              · rw [if_neg h2, if_neg h3] at hbc
                rw [if_neg h2, if_neg h3]
                exact ih hab hbc

theorem mem_insertEmoji {s x : List Char} : ∀ {l : List (List Char)},
    x ∈ insertEmoji s l ↔ x = s ∨ x ∈ l := by
  intro l
  induction l with
  | nil => simp [insertEmoji]
  | cons y ys ih =>
    unfold insertEmoji
    by_cases h1 : lexLt s y = true
    · rw [if_pos h1]
      simp [List.mem_cons]
    · rw [if_neg h1]
      by_cases h2 : s = y
      · rw [if_pos h2]
        subst h2
        simp [List.mem_cons]
      · rw [if_neg h2]
        simp only [List.mem_cons, ih]
        tauto

theorem pairwise_insertEmoji {s : List Char} : ∀ {l : List (List Char)},
    l.Pairwise (fun a b => lexLt a b = true) →
    (insertEmoji s l).Pairwise (fun a b => lexLt a b = true) := by
  intro l
  induction l with
  | nil =>
    intro _
    simp [insertEmoji]
  | cons y ys ih =>
    intro hp
    rw [List.pairwise_cons] at hp
    unfold insertEmoji
    by_cases h1 : lexLt s y = true
    · rw [if_pos h1]
      rw [List.pairwise_cons]
      constructor
      · intro b hb
        rcases List.mem_cons.mp hb with h2 | h2
        · subst h2
          exact h1
        · exact lexLt_trans h1 (hp.1 b h2)
      · exact List.pairwise_cons.mpr hp
    · rw [if_neg h1]
      by_cases h2 : s = y
      · rw [if_pos h2]
        exact List.pairwise_cons.mpr hp
      · rw [if_neg h2]
        rw [List.pairwise_cons]
        have h1f : lexLt s y = false := by
          simpa using h1
        constructor
        · intro b hb
          rcases mem_insertEmoji.mp hb with h3 | h3
          · subst h3
            by_contra h4
            have h4f : lexLt y b = false := by
              simpa using h4
            exact h2 (eq_of_not_lexLt h1f h4f)
          · exact hp.1 b h3
        · exact ih hp.2

theorem nodup_of_pairwise_lexLt {l : List (List Char)}
    (h : l.Pairwise (fun a b => lexLt a b = true)) : l.Nodup := by
  apply List.Pairwise.imp ?_ h
  intro a b hab
  intro he
  subst he
  rw [lexLt_irrefl] at hab
  exact Bool.noConfusion hab

theorem mem_foldl_catalogInsert : ∀ (files : List (List Char)) (acc : List (List Char))
    (s : List Char),
    s ∈ files.foldl catalogInsert acc ↔ (∃ f ∈ files, decodeFilename f = some s) ∨ s ∈ acc := by
  intro files
  induction files with
  | nil => simp
  | cons f fs ih =>
    intro acc s
    rw [List.foldl_cons, ih]
    unfold catalogInsert
    rcases hd : decodeFilename f with _ | v
    · simp only [List.mem_cons]
      constructor
      · intro hc
        rcases hc with ⟨f2, hf2, he2⟩ | hacc
        · exact Or.inl ⟨f2, Or.inr hf2, he2⟩
        · exact Or.inr hacc
      · intro hc
        rcases hc with ⟨f2, hf2, he2⟩ | hacc
        · rcases hf2 with h3 | h3
          · subst h3
            rw [hd] at he2
            exact Option.noConfusion he2
          · exact Or.inl ⟨f2, h3, he2⟩
        · exact Or.inr hacc
    · simp only [mem_insertEmoji, List.mem_cons]
      constructor
      · intro hc
        rcases hc with ⟨f2, hf2, he2⟩ | hv | hacc
        · exact Or.inl ⟨f2, Or.inr hf2, he2⟩
        · subst hv
          exact Or.inl ⟨f, Or.inl rfl, hd⟩
        · exact Or.inr hacc
      · intro hc
        rcases hc with ⟨f2, hf2, he2⟩ | hacc
        · rcases hf2 with h3 | h3
          · subst h3
            rw [hd] at he2
            injection he2 with he2
            exact Or.inr (Or.inl he2.symm)
          · exact Or.inl ⟨f2, h3, he2⟩
        · exact Or.inr (Or.inr hacc)

theorem pairwise_foldl_catalogInsert : ∀ (files : List (List Char)) (acc : List (List Char)),
    acc.Pairwise (fun a b => lexLt a b = true) →
    (files.foldl catalogInsert acc).Pairwise (fun a b => lexLt a b = true) := by
  intro files
  induction files with
  | nil =>
    intro acc h
    simpa using h
  | cons f fs ih =>
    intro acc h
    rw [List.foldl_cons]
    apply ih
    unfold catalogInsert
    rcases decodeFilename f with _ | v
    · exact h
    · exact pairwise_insertEmoji h

theorem buildEmoji_good : ∀ (files : List (List Char)) (acc : List (List Char)),
    buildEmoji (files.map (fun f => Except.ok (Except.ok f))) acc =
      .ok (files.foldl catalogInsert acc) := by
  intro files
  induction files with
  | nil =>
    intro acc
    rfl
  | cons f fs ih =>
    intro acc
    rw [List.map_cons, List.foldl_cons]
    exact ih (catalogInsert acc f)

theorem buildEmoji_ok_of_good : ∀ (entries : List DirEntry) (acc : List (List Char)),
    (∀ x ∈ entries, ∃ s, x = Except.ok (Except.ok s)) →
    ∃ c, buildEmoji entries acc = .ok c := by
  intro entries
  induction entries with
  | nil =>
    intro acc _
    exact ⟨acc, rfl⟩
  | cons x xs ih =>
    intro acc hgood
    obtain ⟨s, hs⟩ := hgood x (List.mem_cons.mpr (Or.inl rfl))
    subst hs
    exact ih (catalogInsert acc s) (fun y hy => hgood y (List.mem_cons.mpr (Or.inr hy)))

theorem buildEmoji_bad_entry : ∀ (pre : List DirEntry) (acc : List (List Char)),
    (∀ x ∈ pre, ∃ s, x = Except.ok (Except.ok s)) →
    (∀ rest : List DirEntry, buildEmoji (pre ++ Except.error () :: rest) acc = .error .Io) ∧
    (∀ (raw : List Nat) (rest : List DirEntry),
      buildEmoji (pre ++ Except.ok (Except.error raw) :: rest) acc =
        .error (.FilenameDecode raw)) := by
  intro pre
  induction pre with
  | nil =>
    intro acc _
    exact ⟨fun rest => rfl, fun raw rest => rfl⟩
  | cons x xs ih =>
    intro acc hgood
    obtain ⟨s, hs⟩ := hgood x (List.mem_cons.mpr (Or.inl rfl))
    subst hs
    have ih2 := ih (catalogInsert acc s) (fun y hy => hgood y (List.mem_cons.mpr (Or.inr hy)))
    exact ⟨fun rest => ih2.1 rest, fun raw rest => ih2.2 raw rest⟩

theorem find?_eq_nil_of_all {l : List (List Char)} {p : List Char → Bool} :
    [] ∈ l → (∀ e ∈ l, p e = true → e = []) → p [] = true → l.find? p = some [] := by
  induction l with
  | nil =>
    intro hmem _ _
    simp at hmem
  | cons x xs ih =>
    intro hmem hall hp
    by_cases hx : p x = true
    · rw [List.find?_cons_of_pos _ hx, hall x (List.mem_cons.mpr (Or.inl rfl)) hx]
    · rw [List.find?_cons_of_neg _ hx]
      apply ih ?_ (fun e he hpe => hall e (List.mem_cons.mpr (Or.inr he)) hpe) hp
      rcases List.mem_cons.mp hmem with h1 | h1
      · rw [← h1] at hx
        exact absurd hp hx
      · exact h1

theorem nextAux_unicode {cat : List (List Char)} {t m : List Char}
    (hc : customMatch t = none) (hm : chooseUnicode cat t = some m) :
    nextAux cat t = .ok (some ([], m, .Unicode m, t.drop m.length)) := by
  have htry : tryHere cat t = some (.ok (some ([], m, .Unicode m, t.drop m.length))) := by
    unfold tryHere
    simp only [hc, hm]
  rw [nextAux_eq, htry]

theorem splitOn_ne_nil_chars (c : Char) (s : List Char) : s.splitOn c ≠ [] :=
  List.splitOnP_ne_nil _ s

theorem filenameGroups_build (stem : List Char) :
    filenameGroups (stem ++ ['.', 's', 'v', 'g']) =
      if (stem.splitOn '-').all groupOk then some (stem.splitOn '-') else none := by
  unfold filenameGroups
  have hrev : (stem ++ ['.', 's', 'v', 'g']).reverse = 'g' :: 'v' :: 's' :: '.' :: stem.reverse := by
    simp
  rw [hrev]
  show (if ((stem.reverse.reverse).splitOn '-').all groupOk
      then some ((stem.reverse.reverse).splitOn '-') else none) = _
  rw [List.reverse_reverse]

theorem filenameGroups_eq_some {f : List Char} {gs : List (List Char)} :
    filenameGroups f = some gs ↔
      gs ≠ [] ∧ (∀ g ∈ gs, groupOk g = true) ∧
      f = List.intercalate ['-'] gs ++ ['.', 's', 'v', 'g'] := by
  constructor
  · intro h
    unfold filenameGroups at h
    split at h <;> try exact Option.noConfusion h
    next stemRev hrev =>
    split at h <;> try exact Option.noConfusion h
    next hall =>
    injection h with h
    subst h
    have h2 := congrArg List.reverse hrev
    rw [List.reverse_reverse] at h2
    refine ⟨splitOn_ne_nil_chars _ _, fun g hg => List.all_eq_true.mp hall g hg, ?_⟩
    rw [h2, List.intercalate_splitOn]
    simp
  · rintro ⟨hne, hall, hf⟩
    have hnein : ∀ l ∈ gs, '-' ∉ l := by
      intro l hl hmem
      have hok := hall l hl
      unfold groupOk at hok
      simp only [Bool.and_eq_true, List.all_eq_true] at hok
      have hhex := hok.2 '-' hmem
      exact absurd hhex (by decide)
    rw [hf, filenameGroups_build, List.splitOn_intercalate gs '-' hnein hne,
      if_pos (List.all_eq_true.mpr hall)]

/-! ### The claims -/

/-- C1: at any scan position where the custom-emoji pattern does not match and
at least one catalog entry is a prefix of the remaining text, `Iter::next`
emits `Unicode` of the longest such entry (compared in codepoints) and
advances past it: the entry the code selects — the reverse-lexicographically
greatest prefix match in the sorted catalog — is of maximal length among all
prefix matches, because prefixes of a common text are linearly ordered by both
length and lexicographic order.  In particular, for a catalog containing both
`"🏳"` and `"🏳️‍🌈"`, scanning `"🏳️‍🌈"` yields exactly one token
`Unicode("🏳️‍🌈")`. -/
theorem C1_longest_match :
    (∀ (cat : List (List Char)) (t : List Char),
      cat.Pairwise (fun a b => lexLt a b = true) →
      customMatch t = none →
      (∃ e ∈ cat, e <+: t) →
      ∃ m, nextAux cat t = .ok (some ([], m, .Unicode m, t.drop m.length)) ∧
        m ∈ cat ∧ m <+: t ∧ ∀ e2 ∈ cat, e2 <+: t → e2.length ≤ m.length) ∧
    scanFuel 2 [[flagChar], rainbowFlag] rainbowFlag = some (.ok [.Unicode rainbowFlag]) := by
  constructor
  · rintro cat t hsort hc ⟨e, he, hp⟩
    obtain ⟨m, hm⟩ := chooseUnicode_isSome he hp
    have hmm := chooseUnicode_mem hm
    exact ⟨m, nextAux_unicode hc hm, hmm.1, hmm.2, chooseUnicode_max hsort hm⟩
  · decide

/-- Witness for C1 at the rainbow-flag example. -/
theorem C1_witness :
    ∃ m, nextAux [[flagChar], rainbowFlag] rainbowFlag =
        .ok (some ([], m, .Unicode m, rainbowFlag.drop m.length)) ∧
      m ∈ [[flagChar], rainbowFlag] ∧ m <+: rainbowFlag ∧
      ∀ e2 ∈ [[flagChar], rainbowFlag], e2 <+: rainbowFlag → e2.length ≤ m.length :=
  C1_longest_match.1 [[flagChar], rainbowFlag] rainbowFlag (by decide) (by decide)
    ⟨[flagChar], by decide, by decide⟩

/-- C2 (amended): for every finite text and every catalog all of whose entries
are non-empty, the token sequence is finite and the scan completes within
(number of codepoints + 1) calls of `Iter::next` — each call that produces a
token consumes at least one codepoint.  The non-emptiness condition is forced
by `C2_counterexample`: with the empty string in the catalog the cursor does
not advance and no fuel suffices. -/
theorem C2_termination_bound (cat : List (List Char)) (t : List Char)
    (hne : ∀ e ∈ cat, e ≠ []) :
    ∃ r, scanFuel (t.length + 1) cat t = some r :=
  Option.isSome_iff_exists.mp (scanFuel_complete hne (t.length + 1) t (by omega))

/-- Counterexample to C2 as stated: with the catalog `{""}` (producible from a
filename such as `110000.svg`, see C10) and the empty text — zero codepoints —
the scan does not finish within the claimed bound, nor within 100 steps. -/
theorem C2_counterexample :
    scanFuel (List.length ([] : List Char) + 1) [([] : List Char)] [] = none ∧
    scanFuel 100 [([] : List Char)] [] = none := by
  constructor
  · decide
  · decide

/-- Witness for C2 on a concrete catalog and text. -/
theorem C2_witness : ∃ r, scanFuel (List.length ['b', 'a'] + 1) [['a']] ['b', 'a'] = some r :=
  C2_termination_bound [['a']] ['b', 'a'] (by decide)

/-- C3: every completed scan decomposes the input text into, per token, the
single-codepoint skips followed by the matched span, plus the trailing
codepoints consumed one at a time by the final `next` call that returns
`None`; concatenating them in order reconstructs the input exactly.  The
embedding works on codepoint lists, which is faithful because every cursor
move in the source lands on a `char` boundary. -/
theorem C3_round_trip (fuel : Nat) (cat : List (List Char)) (t : List Char)
    (pieces : List (List Char)) (leftover : List Char)
    (h : scanParts fuel cat t = some (.ok (pieces, leftover))) :
    pieces.flatten ++ leftover = t := by
  induction fuel generalizing t pieces leftover with
  | zero => simp [scanParts] at h
  | succ k ih =>
    rw [scanParts] at h
    revert h
    rcases hn : nextAux cat t with _ | o
    · intro h
      simp only [] at h
      injection h with h
      exact PResult.noConfusion h
    · rcases o with _ | ⟨sk, span, tok, rest⟩
      · intro h
        simp only [] at h
        injection h with h
        injection h with h
        injection h with e1 e2
        subst e1
        subst e2
        simp
      · intro h
        simp only [] at h
        revert h
        rcases hs : scanParts k cat rest with _ | p
        · intro h
          simp only [] at h
          exact Option.noConfusion h
        · rcases p with _ | ⟨ps, lo⟩
          · intro h
            simp only [] at h
            injection h with h
            exact PResult.noConfusion h
          · intro h
            simp only [] at h
            injection h with h
            injection h with h
            injection h with e1 e2
            subst e1
            subst e2
            have hrec := ih rest ps lo hs
            have hcons := nextAux_consumed hn
            rw [List.flatten_cons, List.append_assoc, hrec, ← hcons, List.append_assoc]

/-- Witness for C3: scanning `"ab"` against the catalog `{"b"}`. -/
theorem C3_witness : ([['a', 'b']] : List (List Char)).flatten ++ [] = ['a', 'b'] :=
  C3_round_trip 2 [['b']] ['a', 'b'] [['a', 'b']] [] (by decide)

/-- C4 (code bug): scanning `"<:bad:99999999999999999999999999>"` panics.
The custom-emoji regex matches, `parse_custom_emoji` is called on the capture,
and `u64::from_str(id).expect(..)` aborts on the out-of-range id
(src/emoji.rs:109), so the scanner neither skips nor yields a token — the
whole process aborts, exactly the behavior §7/§9 of the spec flag as a
defect. -/
theorem C4_malformed_id_panics :
    parse_custom_emoji overflowText = .panic ∧
    nextAux [] overflowText = .panic ∧
    scanFuel 1 [] overflowText = some .panic := by
  refine ⟨by decide, by decide, by decide⟩

/-- C5 (code bug): `parse_custom_emoji` returns `Some` exactly on full-pattern
matches whose id fits in `u64`, and returns `None` on non-matching inputs,
including embedded well-formed tokens — but on a full-pattern match whose
digit group overflows `u64` it panics instead of returning `None`
(src/emoji.rs:109), contradicting the contract that every other input yields
absence. -/
theorem C5_parse_anchoring :
    parse_custom_emoji overflowText = .panic ∧
    parse_custom_emoji ('x' :: "<:ab:12>".toList) = .ok none ∧
    parse_custom_emoji ("<:ab:12> ".toList) = .ok none ∧
    parse_custom_emoji ("<:ab:12>".toList) = .ok (some (.Custom 12 "ab".toList)) := by
  refine ⟨by decide, by decide, by decide, by decide⟩

/-- C6: the builder adds a catalog entry exactly for filenames of the form
`g₁-…-gₙ.svg` with n ≥ 1 groups of 1-6 lowercase hex digits, and the added
string is the in-order concatenation of the characters obtained by parsing
each group as base 16 and converting to a Unicode scalar value, groups that do
not denote a scalar value being dropped (`filter_map`); other filenames
contribute nothing. -/
theorem C6_filename_decoding (f s : List Char) :
    decodeFilename f = some s ↔
      ∃ gs : List (List Char), gs ≠ [] ∧ (∀ g ∈ gs, groupOk g = true) ∧
        f = List.intercalate ['-'] gs ++ ['.', 's', 'v', 'g'] ∧
        s = gs.filterMap decodeGroup := by
  unfold decodeFilename
  rw [Option.map_eq_some']
  constructor
  · rintro ⟨gs, hgs, hmap⟩
    obtain ⟨hne, hall, hf⟩ := filenameGroups_eq_some.mp hgs
    exact ⟨gs, hne, hall, hf, hmap.symm⟩
  · rintro ⟨gs, hne, hall, hf, hs⟩
    exact ⟨gs, filenameGroups_eq_some.mpr ⟨hne, hall, hf⟩, hs.symm⟩

/-- C7: if reading the directory fails the build returns `Io`; if, after any
run of well-decoded entries, an entry fails to stat the build returns `Io`,
and if an entry's name is undecodable the build returns `FilenameDecode`
carrying the raw name — in each case no catalog is produced (the `Except` is
an error, not a partial `Iter`). -/
theorem C7_build_atomicity :
    (∀ text : List Char, IterNew text (.error ()) = .error .Io) ∧
    (∀ (text : List Char) (pre rest : List DirEntry),
      (∀ x ∈ pre, ∃ s : List Char, x = Except.ok (Except.ok s)) →
      IterNew text (.ok (pre ++ Except.error () :: rest)) = .error .Io ∧
      ∀ raw : List Nat,
        IterNew text (.ok (pre ++ Except.ok (Except.error raw) :: rest)) =
          .error (.FilenameDecode raw)) := by
  constructor
  · intro text
    rfl
  · intro text pre rest hpre
    have hb := buildEmoji_bad_entry pre [] hpre
    constructor
    · simp only [IterNew]
      rw [hb.1 rest]
      rfl
    · intro raw
      simp only [IterNew]
      rw [hb.2 raw rest]
      rfl

/-- Witness for C7 with one good entry before each kind of bad entry. -/
theorem C7_witness :
    IterNew [] (.ok ([Except.ok (Except.ok ("61.svg".toList))] ++ Except.error () :: [])) =
      .error .Io ∧
    IterNew [] (.ok ([Except.ok (Except.ok ("61.svg".toList))] ++
      Except.ok (Except.error [255]) :: [])) = .error (.FilenameDecode [255]) := by
  have h := C7_build_atomicity.2 [] [Except.ok (Except.ok ("61.svg".toList))] []
    (by
      intro x hx
      rw [List.mem_singleton] at hx
      exact ⟨_, hx⟩)
  exact ⟨h.1, h.2 [255]⟩

/-- C8: building from the same multiset of decodable directory entries yields
catalogs with identical membership regardless of enumeration order, and the
catalog has no duplicates (the `BTreeSet` collapses filenames decoding to the
same string). -/
theorem C8_catalog_determinism (files₁ files₂ : List (List Char))
    (hperm : files₁.Perm files₂) (cat₁ cat₂ : List (List Char))
    (h₁ : buildEmoji (files₁.map (fun f => Except.ok (Except.ok f))) [] = .ok cat₁)
    (h₂ : buildEmoji (files₂.map (fun f => Except.ok (Except.ok f))) [] = .ok cat₂) :
    (∀ s, s ∈ cat₁ ↔ s ∈ cat₂) ∧ cat₁.Nodup := by
  rw [buildEmoji_good] at h₁ h₂
  injection h₁ with h₁
  injection h₂ with h₂
  subst h₁
  subst h₂
  constructor
  · intro s
    rw [mem_foldl_catalogInsert, mem_foldl_catalogInsert]
    constructor
    · rintro (⟨f, hf, he⟩ | hacc)
      · exact Or.inl ⟨f, hperm.subset hf, he⟩
      · exact Or.inr hacc
    · rintro (⟨f, hf, he⟩ | hacc)
      · exact Or.inl ⟨f, hperm.symm.subset hf, he⟩
      · exact Or.inr hacc
  · exact nodup_of_pairwise_lexLt (pairwise_foldl_catalogInsert files₁ [] List.Pairwise.nil)

/-- Witness for C8 on two enumeration orders of `{61.svg, 62.svg}`. -/
theorem C8_witness :
    (∀ s, s ∈ ([['a'], ['b']] : List (List Char)) ↔ s ∈ ([['a'], ['b']] : List (List Char))) ∧
    ([['a'], ['b']] : List (List Char)).Nodup :=
  C8_catalog_determinism ["61.svg".toList, "62.svg".toList]
    ["62.svg".toList, "61.svg".toList] (by decide) [['a'], ['b']] [['a'], ['b']]
    rfl rfl

/-- C9: given the text and the catalog — that is, once the directory entries
have been listed and decoded without error — construction always succeeds
(`Ok` for every text and entry list), and the token sequence is a pure
function of the `Iter`'s text and catalog fields: any scanner with the same
two fields produces the identical sequence. -/
theorem C9_construction_pure (text : List Char) (entries : List DirEntry)
    (hgood : ∀ x ∈ entries, ∃ s : List Char, x = Except.ok (Except.ok s)) :
    ∃ it : Iter, IterNew text (.ok entries) = .ok it ∧ it.text = text ∧
      ∀ (text₂ : List Char) (dir₂ : Except Unit (List DirEntry)) (it₂ : Iter),
        IterNew text₂ dir₂ = .ok it₂ → it₂.text = it.text → it₂.emoji = it.emoji →
        ∀ fuel, scanFuel fuel it₂.emoji it₂.text = scanFuel fuel it.emoji it.text := by
  obtain ⟨c, hc⟩ := buildEmoji_ok_of_good entries [] hgood
  refine ⟨⟨text, c⟩, ?_, rfl, ?_⟩
  · simp only [IterNew]
    rw [hc]
    rfl
  · intro text₂ dir₂ it₂ _ ht he fuel
    rw [ht, he]

/-- Witness for C9 on an empty directory listing. -/
theorem C9_witness :
    ∃ it : Iter, IterNew ['h', 'i'] (.ok []) = .ok it ∧ it.text = ['h', 'i'] ∧
      ∀ (text₂ : List Char) (dir₂ : Except Unit (List DirEntry)) (it₂ : Iter),
        IterNew text₂ dir₂ = .ok it₂ → it₂.text = it.text → it₂.emoji = it.emoji →
        ∀ fuel, scanFuel fuel it₂.emoji it₂.text = scanFuel fuel it.emoji it.text :=
  C9_construction_pure ['h', 'i'] []
    (by
      intro x hx
      exact absurd hx (List.not_mem_nil x))

/-- C10: the builder inserts the empty string for a pattern-matching filename
all of whose groups fail the scalar-value check (`110000.svg`), and whenever
the catalog contains the empty string, at any position where neither the
custom-emoji pattern nor any non-empty entry matches, `Iter::next` returns
`Unicode("")` without advancing, so no amount of fuel finishes the scan: the
token sequence is infinite. -/
theorem C10_empty_entry :
    decodeFilename ("110000.svg".toList) = some [] ∧
    ∀ (cat : List (List Char)) (t : List Char), [] ∈ cat → customMatch t = none →
      (∀ e ∈ cat, e ≠ [] → ¬ (e <+: t)) →
      nextAux cat t = .ok (some ([], [], .Unicode [], t)) ∧
      ∀ fuel, scanFuel fuel cat t = none := by
  refine ⟨by decide, ?_⟩
  intro cat t hmem hc hnp
  have hm : chooseUnicode cat t = some [] := by
    unfold chooseUnicode
    apply find?_eq_nil_of_all (List.mem_reverse.mpr hmem) ?_ ?_
    · intro e he hpe
      by_contra hne2
      exact hnp e (List.mem_reverse.mp he) hne2 (List.isPrefixOf_iff_prefix.mp hpe)
    · exact List.isPrefixOf_iff_prefix.mpr List.nil_prefix
  have hnext := nextAux_unicode hc hm
  simp only [List.length_nil, List.drop_zero] at hnext
  refine ⟨hnext, ?_⟩
  intro fuel
  induction fuel with
  | zero => rfl
  | succ k ih =>
    rw [scanFuel, hnext]
    simp only []
    rw [ih]

/-- Witness for C10 at the catalog `{""}` and empty text. -/
theorem C10_witness :
    nextAux [([] : List Char)] [] = .ok (some ([], [], .Unicode [], [])) ∧
    scanFuel 5 [([] : List Char)] [] = none := by
  have h := C10_empty_entry.2 [[]] [] (by decide) (by decide) (by decide)
  exact ⟨h.1, h.2 5⟩

end PeterEmoji
